import Mathlib

/-!
Shallow embedding of the duplicate-detection and content-addressed archival
engine of the `lossless-vault` repository, together with theorems checking the
natural-language specification against the code.

Source files embedded here:
  * `crates/core/src/domain.rs`              — `PhotoFormat`, `Confidence`,
    `PhotoFile`, `DuplicateGroup`
  * `crates/core/src/matching/confidence.rs` — thresholds,
    `confidence_from_hamming`, `combine_confidence`
  * `crates/core/src/ranking.rs`             — `elect_source_of_truth`
  * `crates/core/src/vault_save.rs`          — `build_content_path`,
    `select_photos_to_export`, `cleanup_pack_files`, `format_str_to_extension`
  * `crates/core/src/hasher/perceptual.rs`   — `compute_ahash`, `compute_dhash`

Machine integers of the source (`u8`, `u32`, `u64`, `i64`) are modelled as
`Nat` / `Int`; the embedded functions only compare, add bounded quantities and
divide, so no wrap-around behaviour is reachable and the unbounded model agrees
with the machine-width one on every representable input.
-/

namespace LosslessVault

/-- `PhotoFormat` from `domain.rs`: closed enum of supported photo formats. -/
inductive PhotoFormat where
  | cr2 | cr3 | nef | arw | orf | raf | rw2 | dng
  | tiff | png
  | jpeg | heic | webp
deriving DecidableEq, Repr

/-- `PhotoFormat::quality_tier` from `domain.rs` (lower = better). -/
def PhotoFormat.quality_tier : PhotoFormat → Nat
  | .cr2 | .cr3 | .nef | .arw | .orf | .raf | .rw2 | .dng => 0
  | .tiff => 1
  | .png => 2
  | .jpeg => 3
  | .heic => 4
  | .webp => 5

/-- `PhotoFormat::supports_perceptual_hash` from `domain.rs`. -/
def PhotoFormat.supports_perceptual_hash : PhotoFormat → Bool
  | .jpeg | .png | .tiff | .webp => true
  | _ => false

/-- `PhotoFormat::as_str` from `domain.rs` (used as the manifest format tag). -/
def PhotoFormat.as_str : PhotoFormat → String
  | .cr2 => "CR2" | .cr3 => "CR3" | .nef => "NEF" | .arw => "ARW"
  | .orf => "ORF" | .raf => "RAF" | .rw2 => "RW2" | .dng => "DNG"
  | .tiff => "TIFF" | .png => "PNG" | .jpeg => "JPEG" | .heic => "HEIC"
  | .webp => "WebP"

/-- Modelled from the spec: `PhotoFormat::extension` is referenced by
`build_content_path` in `vault_save.rs` but its definition is not among the
provided sources. The spec fixes `content_path(root, hash, format) =
root/hash[0:2]/hash.<ext>` with the example that JPEG yields extension `jpg`,
and the in-repo map `format_str_to_extension` (which inverts `as_str` to an
extension) pins the remaining variants. -/
def PhotoFormat.extension : PhotoFormat → String
  | .cr2 => "cr2" | .cr3 => "cr3" | .nef => "nef" | .arw => "arw"
  | .orf => "orf" | .raf => "raf" | .rw2 => "rw2" | .dng => "dng"
  | .tiff => "tiff" | .png => "png" | .jpeg => "jpg" | .heic => "heic"
  | .webp => "webp"

/-- `Confidence` from `domain.rs`: five ordered levels; the Rust enum derives
`Ord` on the listed discriminants 0..4. -/
inductive Confidence where
  | low | probable | high | nearCertain | certain
deriving DecidableEq, Repr

/-- The discriminant of a `Confidence` value, as declared in `domain.rs`
(`Low = 0, …, Certain = 4`); the derived Rust `Ord` compares these. -/
def Confidence.toNat : Confidence → Nat
  | .low => 0
  | .probable => 1
  | .high => 2
  | .nearCertain => 3
  | .certain => 4

/-- The derived strict order on `Confidence` (compares discriminants). -/
def Confidence.lt (a b : Confidence) : Bool :=
  a.toNat < b.toNat

/-- Threshold constants from `matching/confidence.rs`. -/
def PHASH_NEAR_CERTAIN_THRESHOLD : Nat := 2

/-- Threshold constant from `matching/confidence.rs`. -/
def PHASH_HIGH_THRESHOLD : Nat := 3

/-- Threshold constant from `matching/confidence.rs`. -/
def PHASH_PROBABLE_THRESHOLD : Nat := 5

/-- `confidence_from_hamming` from `matching/confidence.rs`. -/
def confidence_from_hamming (distance : Nat) : Option Confidence :=
  if distance ≤ PHASH_NEAR_CERTAIN_THRESHOLD then
    some .nearCertain
  else if distance ≤ PHASH_HIGH_THRESHOLD then
    some .high
  else if distance ≤ PHASH_PROBABLE_THRESHOLD then
    some .probable
  else
    none

/-- `combine_confidence` from `matching/confidence.rs`: takes the lower
(more conservative) of the two levels. -/
def combine_confidence (a b : Confidence) : Confidence :=
  if a.lt b then a else b

/-- Order on `Option Confidence` used to state monotonicity of the distance →
confidence mapping: "no match" (`none`) is below every resolved confidence. -/
def confLeOpt : Option Confidence → Option Confidence → Prop
  | none, _ => True
  | some _, none => False
  | some a, some b => a.toNat ≤ b.toNat

/-- C3: `confidence_from_hamming` maps distance ≤ 2 to `NearCertain`, 3 to
`High`, 4–5 to `Probable` and ≥ 6 to no match, and is monotonically
non-increasing in the distance under the `Confidence` order. -/
theorem confidence_from_hamming_thresholds :
    (∀ d : Nat,
      (d ≤ 2 → confidence_from_hamming d = some .nearCertain) ∧
      (d = 3 → confidence_from_hamming d = some .high) ∧
      (4 ≤ d → d ≤ 5 → confidence_from_hamming d = some .probable) ∧
      (6 ≤ d → confidence_from_hamming d = none)) ∧
    ∀ d d' : Nat, d ≤ d' →
      confLeOpt (confidence_from_hamming d') (confidence_from_hamming d) := by
  constructor
  · intro d
    refine ⟨fun h => ?_, fun h => ?_, fun h h' => ?_, fun h => ?_⟩ <;>
      simp only [confidence_from_hamming, PHASH_NEAR_CERTAIN_THRESHOLD,
        PHASH_HIGH_THRESHOLD, PHASH_PROBABLE_THRESHOLD] <;>
      split_ifs <;> first | rfl | omega
  · intro d d' h
    simp only [confidence_from_hamming, PHASH_NEAR_CERTAIN_THRESHOLD,
      PHASH_HIGH_THRESHOLD, PHASH_PROBABLE_THRESHOLD]
    split_ifs <;>
      simp_all [confLeOpt, Confidence.toNat] <;> omega

/-- Closed witness for `confidence_from_hamming_thresholds`, instantiating the
threshold clauses at distances 1, 3, 4, 7 and the monotonicity clause at the
pair 2 ≤ 5. -/
theorem confidence_from_hamming_thresholds_witness :
    confidence_from_hamming 1 = some .nearCertain ∧
    confidence_from_hamming 3 = some .high ∧
    confidence_from_hamming 4 = some .probable ∧
    confidence_from_hamming 7 = none ∧
    confLeOpt (confidence_from_hamming 5) (confidence_from_hamming 2) :=
  ⟨(confidence_from_hamming_thresholds.1 1).1 (by decide),
   (confidence_from_hamming_thresholds.1 3).2.1 (by decide),
   (confidence_from_hamming_thresholds.1 4).2.2.1 (by decide) (by decide),
   (confidence_from_hamming_thresholds.1 7).2.2.2 (by decide),
   confidence_from_hamming_thresholds.2 2 5 (by decide)⟩

/-- C4: `combine_confidence` returns the lower of its two arguments under the
discriminant order `Low < Probable < High < NearCertain < Certain`; it is
commutative and idempotent, and that order is exactly the declared one. -/
theorem combine_confidence_is_min :
    (∀ a b : Confidence,
      (combine_confidence a b).toNat = min a.toNat b.toNat ∧
      (combine_confidence a b = a ∨ combine_confidence a b = b) ∧
      combine_confidence a b = combine_confidence b a ∧
      combine_confidence a a = a) ∧
    Confidence.toNat .low < Confidence.toNat .probable ∧
    Confidence.toNat .probable < Confidence.toNat .high ∧
    Confidence.toNat .high < Confidence.toNat .nearCertain ∧
    Confidence.toNat .nearCertain < Confidence.toNat .certain := by
  refine ⟨fun a b => ?_, by decide, by decide, by decide, by decide⟩
  cases a <;> cases b <;> decide

/-- `PhotoFile` from `domain.rs`. The `exif` metadata block is omitted: it
holds only floating-point GPS data and strings that none of the embedded
functions read. -/
structure PhotoFile where
  id : Int
  source_id : Int
  path : String
  size : Nat
  format : PhotoFormat
  sha256 : String
  phash : Option Nat
  dhash : Option Nat
  mtime : Int
deriving DecidableEq, Repr

/-- The comparator passed to `min_by` in `elect_source_of_truth`
(`ranking.rs`): quality tier ascending, then size descending, then mtime
ascending. -/
def electCmp (a b : PhotoFile) : Ordering :=
  ((compare a.format.quality_tier b.format.quality_tier).then
    (compare b.size a.size)).then
    (compare a.mtime b.mtime)

/-- `elect_source_of_truth` from `ranking.rs`. The `assert!` on an empty
member list (a panic) is modelled as `none`; on a non-empty list the result is
`some` of what Rust's `Iterator::min_by` returns — the first member minimal
under `electCmp` (ties keep the earlier element). -/
def elect_source_of_truth (members : List PhotoFile) : Option PhotoFile :=
  match members with
  | [] => none
  | m :: rest =>
      some (rest.foldl (fun best p => if electCmp p best = .lt then p else best) m)

/-- The spec's successive tie-break order, written from the spec's words:
`a` outranks `b` when `a` has a strictly lower quality tier, or the tiers tie
and `a` is strictly larger, or tier and size tie and `a` is strictly older. -/
def RankedBetter (a b : PhotoFile) : Prop :=
  a.format.quality_tier < b.format.quality_tier ∨
  (a.format.quality_tier = b.format.quality_tier ∧ b.size < a.size) ∨
  (a.format.quality_tier = b.format.quality_tier ∧ a.size = b.size ∧
    a.mtime < b.mtime)

lemma electCmp_eq_lt {a b : PhotoFile} :
    electCmp a b = .lt ↔ RankedBetter a b := by
  unfold electCmp RankedBetter
  rcases lt_trichotomy a.format.quality_tier b.format.quality_tier with h | h | h
  · rw [compare_lt_iff_lt.mpr h]
    exact iff_of_true rfl (Or.inl h)
  · rw [compare_eq_iff_eq.mpr h]
    rcases lt_trichotomy b.size a.size with h2 | h2 | h2
    · rw [compare_lt_iff_lt.mpr h2]
      exact iff_of_true rfl (Or.inr (Or.inl ⟨h, h2⟩))
    · rw [compare_eq_iff_eq.mpr h2]
      show compare a.mtime b.mtime = .lt ↔ _
      rw [compare_lt_iff_lt]
      constructor
      · intro hm
        exact Or.inr (Or.inr ⟨h, h2.symm, hm⟩)
      · rintro (hc | ⟨hc1, hc2⟩ | ⟨hc1, hc2, hc3⟩) <;> omega
    · rw [compare_gt_iff_gt.mpr h2]
      refine iff_of_false (fun hc => Ordering.noConfusion hc) ?_
      rintro (hc | ⟨hc1, hc2⟩ | ⟨hc1, hc2, hc3⟩) <;> omega
  · rw [compare_gt_iff_gt.mpr h]
    refine iff_of_false (fun hc => Ordering.noConfusion hc) ?_
    rintro (hc | ⟨hc1, hc2⟩ | ⟨hc1, hc2, hc3⟩) <;> omega

lemma rankedBetter_trans {a b c : PhotoFile} :
    RankedBetter a b → RankedBetter b c → RankedBetter a c := by
  unfold RankedBetter
  omega

lemma rankedBetter_of_notBetter_of_better {a b c : PhotoFile} :
    ¬ RankedBetter b a → RankedBetter b c → RankedBetter a c := by
  unfold RankedBetter
  omega

/-- Invariant of the `min_by` fold: the accumulated best stays in the set of
candidates seen so far, and no candidate seen so far strictly outranks it. -/
lemma elect_fold_spec (l : List PhotoFile) (init : PhotoFile) :
    (l.foldl (fun best p => if electCmp p best = .lt then p else best) init
        = init ∨
      l.foldl (fun best p => if electCmp p best = .lt then p else best) init
        ∈ l) ∧
    ¬ RankedBetter init
      (l.foldl (fun best p => if electCmp p best = .lt then p else best) init) ∧
    ∀ m ∈ l,
      ¬ RankedBetter m
        (l.foldl (fun best p => if electCmp p best = .lt then p else best)
          init) := by
  induction l generalizing init with
  | nil =>
      refine ⟨Or.inl rfl, ?_, by simp⟩
      simp only [List.foldl_nil]
      unfold RankedBetter
      omega
  | cons p t ih =>
      simp only [List.foldl_cons]
      by_cases hp : electCmp p init = .lt
      · have hbetter : RankedBetter p init := electCmp_eq_lt.mp hp
        simp only [hp, if_pos rfl, List.mem_cons]
        obtain ⟨hmem, hinit, hall⟩ := ih p
        refine ⟨?_, ?_, ?_⟩
        · rcases hmem with h | h
          · exact Or.inr (Or.inl h)
          · exact Or.inr (Or.inr h)
        · intro hcon
          exact hinit (rankedBetter_trans hbetter hcon)
        · intro x hx
          rcases hx with hx | hx
          · exact hx ▸ hinit
          · exact hall x hx
      · have hnb : ¬ RankedBetter p init := fun h => hp (electCmp_eq_lt.mpr h)
        simp only [if_neg hp, List.mem_cons]
        obtain ⟨hmem, hinit, hall⟩ := ih init
        refine ⟨?_, hinit, ?_⟩
        · rcases hmem with h | h
          · exact Or.inl h
          · exact Or.inr (Or.inr h)
        · intro x hx
          rcases hx with hx | hx
          · subst hx
            intro hcon
            exact hinit (rankedBetter_of_notBetter_of_better hnb hcon)
          · exact hall x hx

/-- C1: on every non-empty member list, `elect_source_of_truth` returns a
member that no other member outranks under the spec's successive tie-break
order (tier, then size descending, then mtime ascending); its tier is minimal
among the members, and if any RAW member (tier 0) is present the winner is
RAW — in particular never a JPEG. -/
theorem elect_source_of_truth_minimal (members : List PhotoFile)
    (h : members ≠ []) :
    ∃ r, elect_source_of_truth members = some r ∧ r ∈ members ∧
      (∀ m ∈ members, ¬ RankedBetter m r) ∧
      (∀ m ∈ members, r.format.quality_tier ≤ m.format.quality_tier) ∧
      ((∃ m ∈ members, m.format.quality_tier = 0) →
        r.format.quality_tier = 0 ∧ r.format ≠ .jpeg) := by
  match members with
  | [] => exact absurd rfl h
  | m :: rest =>
      obtain ⟨hmem, hinit, hall⟩ := elect_fold_spec rest m
      set r := rest.foldl (fun best p => if electCmp p best = .lt then p else best) m
        with hr
      refine ⟨r, rfl, ?_, ?_, ?_, ?_⟩
      · rcases hmem with h | h
        · exact h ▸ List.mem_cons_self m rest
        · exact List.mem_cons_of_mem m h
      · intro x hx
        rcases List.mem_cons.mp hx with hx | hx
        · exact hx ▸ hinit
        · exact hall x hx
      · intro x hx
        have hnb : ¬ RankedBetter x r := by
          rcases List.mem_cons.mp hx with hx | hx
          · exact hx ▸ hinit
          · exact hall x hx
        revert hnb
        unfold RankedBetter
        omega
      · rintro ⟨x, hx, hx0⟩
        have hle : r.format.quality_tier ≤ x.format.quality_tier := by
          have hnb : ¬ RankedBetter x r := by
            rcases List.mem_cons.mp hx with hx | hx
            · exact hx ▸ hinit
            · exact hall x hx
          revert hnb
          unfold RankedBetter
          omega
        have h0 : r.format.quality_tier = 0 := by omega
        refine ⟨h0, fun hj => ?_⟩
        rw [hj] at h0
        simp [PhotoFormat.quality_tier] at h0

/-- Closed witness for `elect_source_of_truth_minimal`: a 20 MB CR2 beats a
5 MB JPEG — the elected photo is minimal and RAW. -/
theorem elect_source_of_truth_minimal_witness :
    ∃ r, elect_source_of_truth
        [⟨1, 1, "/test/1.jpg", 5000000, .jpeg, "hash", none, none, 1000⟩,
         ⟨2, 1, "/test/2.cr2", 20000000, .cr2, "hash", none, none, 1000⟩]
      = some r ∧
      r ∈ [⟨1, 1, "/test/1.jpg", 5000000, .jpeg, "hash", none, none, 1000⟩,
           ⟨2, 1, "/test/2.cr2", 20000000, .cr2, "hash", none, none, 1000⟩] ∧
      (∀ m ∈ [(⟨1, 1, "/test/1.jpg", 5000000, .jpeg, "hash", none, none,
                1000⟩ : PhotoFile),
              ⟨2, 1, "/test/2.cr2", 20000000, .cr2, "hash", none, none, 1000⟩],
        ¬ RankedBetter m r) ∧
      (∀ m ∈ [(⟨1, 1, "/test/1.jpg", 5000000, .jpeg, "hash", none, none,
                1000⟩ : PhotoFile),
              ⟨2, 1, "/test/2.cr2", 20000000, .cr2, "hash", none, none, 1000⟩],
        r.format.quality_tier ≤ m.format.quality_tier) ∧
      ((∃ m ∈ [(⟨1, 1, "/test/1.jpg", 5000000, .jpeg, "hash", none, none,
                 1000⟩ : PhotoFile),
               ⟨2, 1, "/test/2.cr2", 20000000, .cr2, "hash", none, none,
                1000⟩], m.format.quality_tier = 0) →
        r.format.quality_tier = 0 ∧ r.format ≠ .jpeg) :=
  elect_source_of_truth_minimal _ (by decide)

/-- C9: electing from a non-empty member list always succeeds (no panic),
while electing from the empty list hits the `assert!` and fails loudly
(modelled as `none`). -/
theorem elect_source_of_truth_empty_contract (members : List PhotoFile) :
    (members ≠ [] → (elect_source_of_truth members).isSome = true) ∧
    elect_source_of_truth ([] : List PhotoFile) = none := by
  refine ⟨fun h => ?_, rfl⟩
  match members with
  | [] => exact absurd rfl h
  | m :: rest => rfl

/-- Closed witness for `elect_source_of_truth_empty_contract` at a concrete
one-element list. -/
theorem elect_source_of_truth_empty_contract_witness :
    (elect_source_of_truth
      [⟨1, 1, "/test/1.jpg", 5000000, .jpeg, "hash", none, none,
        1000⟩]).isSome = true ∧
    elect_source_of_truth ([] : List PhotoFile) = none :=
  ⟨(elect_source_of_truth_empty_contract
      [⟨1, 1, "/test/1.jpg", 5000000, .jpeg, "hash", none, none, 1000⟩]).1
      (by decide),
   (elect_source_of_truth_empty_contract []).2⟩

/-- `DuplicateGroup` from `domain.rs`. -/
structure DuplicateGroup where
  id : Int
  members : List PhotoFile
  source_of_truth_id : Int
  confidence : Confidence
deriving DecidableEq, Repr

/-- The `grouped_ids` set built by `select_photos_to_export`
(`vault_save.rs`): every member id of every group. -/
def groupedIds (groups : List DuplicateGroup) : Finset Int :=
  groups.foldl (fun s g => g.members.foldl (fun s m => insert m.id s) s) ∅

/-- The `sot_ids` set built by `select_photos_to_export` (`vault_save.rs`):
every group's `source_of_truth_id`. -/
def sotIds (groups : List DuplicateGroup) : Finset Int :=
  groups.foldl (fun s g => insert g.source_of_truth_id s) ∅

/-- `select_photos_to_export` from `vault_save.rs`: keep a photo when it is
ungrouped, or when its id is some group's source-of-truth id. -/
def select_photos_to_export (all_photos : List PhotoFile)
    (groups : List DuplicateGroup) : List PhotoFile :=
  all_photos.filter fun p =>
    if p.id ∈ groupedIds groups then decide (p.id ∈ sotIds groups) else true

lemma mem_foldl_insert_id (ms : List PhotoFile) (init : Finset Int) (x : Int) :
    x ∈ ms.foldl (fun s m => insert m.id s) init ↔
      x ∈ init ∨ ∃ m ∈ ms, m.id = x := by
  induction ms generalizing init with
  | nil => simp
  | cons m t ih =>
      simp only [List.foldl_cons, ih, Finset.mem_insert, List.mem_cons]
      constructor
      · rintro ((h | h) | h)
        · exact Or.inr ⟨m, Or.inl rfl, h.symm⟩
        · exact Or.inl h
        · obtain ⟨y, hy, hyx⟩ := h
          exact Or.inr ⟨y, Or.inr hy, hyx⟩
      · rintro (h | ⟨y, (rfl | hy), hyx⟩)
        · exact Or.inl (Or.inr h)
        · exact Or.inl (Or.inl hyx.symm)
        · exact Or.inr ⟨y, hy, hyx⟩

lemma mem_groupedIds (groups : List DuplicateGroup) (x : Int) :
    x ∈ groupedIds groups ↔ ∃ g ∈ groups, ∃ m ∈ g.members, m.id = x := by
  unfold groupedIds
  suffices h : ∀ (l : List DuplicateGroup) (init : Finset Int),
      (x ∈ l.foldl (fun s g => g.members.foldl (fun s m => insert m.id s) s)
        init ↔ x ∈ init ∨ ∃ g ∈ l, ∃ m ∈ g.members, m.id = x) by
    simpa using h groups ∅
  intro l
  induction l with
  | nil => simp
  | cons g t ih =>
      intro init
      simp only [List.foldl_cons, ih, mem_foldl_insert_id, List.mem_cons]
      constructor
      · rintro ((h | h) | h)
        · exact Or.inl h
        · obtain ⟨m, hm, hmx⟩ := h
          exact Or.inr ⟨g, Or.inl rfl, m, hm, hmx⟩
        · obtain ⟨g2, hg2, hrest⟩ := h
          exact Or.inr ⟨g2, Or.inr hg2, hrest⟩
      · rintro (h | ⟨g2, (rfl | hg2), hrest⟩)
        · exact Or.inl (Or.inl h)
        · exact Or.inl (Or.inr hrest)
        · exact Or.inr ⟨g2, hg2, hrest⟩

lemma mem_sotIds (groups : List DuplicateGroup) (x : Int) :
    x ∈ sotIds groups ↔ ∃ g ∈ groups, g.source_of_truth_id = x := by
  unfold sotIds
  suffices h : ∀ (l : List DuplicateGroup) (init : Finset Int),
      (x ∈ l.foldl (fun s g => insert g.source_of_truth_id s) init ↔
        x ∈ init ∨ ∃ g ∈ l, g.source_of_truth_id = x) by
    simpa using h groups ∅
  intro l
  induction l with
  | nil => simp
  | cons g t ih =>
      intro init
      simp only [List.foldl_cons, ih, Finset.mem_insert, List.mem_cons]
      constructor
      · rintro ((h | h) | h)
        · exact Or.inr ⟨g, Or.inl rfl, h.symm⟩
        · exact Or.inl h
        · obtain ⟨g2, hg2, hgx⟩ := h
          exact Or.inr ⟨g2, Or.inr hg2, hgx⟩
      · rintro (h | ⟨g2, (rfl | hg2), hgx⟩)
        · exact Or.inl (Or.inr h)
        · exact Or.inl (Or.inl hgx.symm)
        · exact Or.inr ⟨g2, hg2, hgx⟩

/-- Export-set membership, characterised over the inputs: a photo is kept iff
it is in `all_photos` and (its id is some group's source-of-truth id, or no
group lists its id as a member). -/
lemma mem_select_photos_iff (all_photos : List PhotoFile)
    (groups : List DuplicateGroup) (p : PhotoFile) :
    p ∈ select_photos_to_export all_photos groups ↔
      p ∈ all_photos ∧
        ((∃ g ∈ groups, g.source_of_truth_id = p.id) ∨
          ∀ g ∈ groups, ∀ m ∈ g.members, m.id ≠ p.id) := by
  unfold select_photos_to_export
  rw [List.mem_filter]
  refine and_congr_right fun _ => ?_
  by_cases hg : p.id ∈ groupedIds groups
  · simp only [hg, if_pos, decide_eq_true_eq, mem_sotIds]
    constructor
    · intro h
      exact Or.inl h
    · rintro (h | h)
      · exact h
      · exfalso
        obtain ⟨g, hgmem, m, hm, hmx⟩ := (mem_groupedIds groups p.id).mp hg
        exact h g hgmem m hm hmx
  · simp only [hg, if_neg, not_false_iff, true_iff]
    refine Or.inr fun g hgmem m hm hmx => ?_
    exact hg ((mem_groupedIds groups p.id).mpr ⟨g, hgmem, m, hm, hmx⟩)

/-- Concrete test photo A (id 1). -/
def photoA : PhotoFile :=
  ⟨1, 1, "/a.jpg", 1000, .jpeg, "sha_1", none, none, 1000⟩

/-- Concrete test photo B (id 2). -/
def photoB : PhotoFile :=
  ⟨2, 1, "/b.jpg", 1000, .jpeg, "sha_2", none, none, 1000⟩

/-- Concrete test photo C (id 3). -/
def photoC : PhotoFile :=
  ⟨3, 1, "/c.jpg", 1000, .jpeg, "sha_3", none, none, 1000⟩

/-- Concrete test photo D (id 4). -/
def photoD : PhotoFile :=
  ⟨4, 1, "/d.jpg", 1000, .jpeg, "sha_4", none, none, 1000⟩

/-- Concrete group {A, B, C} with source of truth B. -/
def groupABC : DuplicateGroup :=
  ⟨1, [photoA, photoB, photoC], 2, .certain⟩

/-- Concrete group {A, B} with source of truth A. -/
def groupAB : DuplicateGroup :=
  ⟨1, [photoA, photoB], 1, .certain⟩

/-- Concrete group {B, C} with source of truth B. -/
def groupBC : DuplicateGroup :=
  ⟨2, [photoB, photoC], 2, .certain⟩

/-- C2: `select_photos_to_export` returns exactly the photos whose id is some
group's source-of-truth id or that belong to no group; moreover, under the
data-model invariants that each group's source-of-truth id is one of its
member ids and that distinct groups share no member id, a grouped photo is
kept precisely when it is its own group's source-of-truth. -/
theorem select_photos_to_export_spec (all_photos : List PhotoFile)
    (groups : List DuplicateGroup) :
    (∀ p, p ∈ select_photos_to_export all_photos groups ↔
      p ∈ all_photos ∧
        ((∃ g ∈ groups, g.source_of_truth_id = p.id) ∨
          ∀ g ∈ groups, ∀ m ∈ g.members, m.id ≠ p.id)) ∧
    ((∀ g ∈ groups, ∃ m ∈ g.members, m.id = g.source_of_truth_id) →
      (∀ g ∈ groups, ∀ g2 ∈ groups,
        (∃ x : Int, (∃ m ∈ g.members, m.id = x) ∧
          ∃ m ∈ g2.members, m.id = x) → g = g2) →
      ∀ p ∈ all_photos, ∀ g ∈ groups, (∃ m ∈ g.members, m.id = p.id) →
        (p ∈ select_photos_to_export all_photos groups ↔
          p.id = g.source_of_truth_id)) := by
  refine ⟨mem_select_photos_iff all_photos groups, ?_⟩
  intro hsotmem hdisj p hp g hg hpg
  constructor
  · intro hsel
    rcases ((mem_select_photos_iff all_photos groups p).mp hsel).2 with h | h
    · obtain ⟨g2, hg2, hx⟩ := h
      obtain ⟨m2, hm2, hm2x⟩ := hsotmem g2 hg2
      have : g = g2 := by
        refine hdisj g hg g2 hg2 ⟨p.id, hpg, m2, hm2, ?_⟩
        rw [hm2x, hx]
      rw [this, hx]
    · exfalso
      obtain ⟨m, hm, hmx⟩ := hpg
      exact h g hg m hm hmx
  · intro hid
    exact (mem_select_photos_iff all_photos groups p).mpr
      ⟨hp, Or.inl ⟨g, hg, hid.symm⟩⟩

/-- Closed witness for `select_photos_to_export_spec`: for a group {A, B, C}
with source-of-truth B and an ungrouped D, the export set is exactly [B, D],
and the per-group clause instantiated at B gives inclusion. -/
theorem select_photos_to_export_spec_witness :
    (LosslessVault.photoB ∈ select_photos_to_export
        [photoA, photoB, photoC, photoD] [groupABC] ↔
      LosslessVault.photoB.id = groupABC.source_of_truth_id) ∧
    select_photos_to_export [photoA, photoB, photoC, photoD] [groupABC] =
      [photoB, photoD] :=
  ⟨(select_photos_to_export_spec [photoA, photoB, photoC, photoD]
        [groupABC]).2
      (by decide)
      (by
        intro g hg g2 hg2 _
        rw [List.mem_singleton.mp hg, List.mem_singleton.mp hg2])
      photoB (by decide) groupABC (by decide) (by decide),
   by decide⟩

/-- C10: inclusion of a grouped photo is decided against the global set of all
groups' source-of-truth ids: a photo that is a non-source-of-truth member of
one group but whose id is another group's source-of-truth id is still
included. -/
theorem select_photos_cross_group_sot (all_photos : List PhotoFile)
    (groups : List DuplicateGroup) (p : PhotoFile) (g1 g2 : DuplicateGroup)
    (hp : p ∈ all_photos) (hg1 : g1 ∈ groups) (hg2 : g2 ∈ groups)
    (hmem : ∃ m ∈ g1.members, m.id = p.id)
    (hnot : p.id ≠ g1.source_of_truth_id)
    (hsot : g2.source_of_truth_id = p.id) :
    p ∈ select_photos_to_export all_photos groups :=
  (mem_select_photos_iff all_photos groups p).mpr
    ⟨hp, Or.inl ⟨g2, hg2, hsot⟩⟩

/-- Closed witness for `select_photos_cross_group_sot`: B is a
non-source-of-truth member of group {A, B} (source of truth A) while being the
source of truth of group {B, C}; B is exported. -/
theorem select_photos_cross_group_sot_witness :
    LosslessVault.photoB ∈ select_photos_to_export [photoA, photoB, photoC]
      [groupAB, groupBC] :=
  select_photos_cross_group_sot [photoA, photoB, photoC] [groupAB, groupBC]
    photoB groupAB groupBC (by decide) (by decide) (by decide) (by decide)
    (by decide) (by decide)


/-- `PathBuf::join` for the relative components used by the archive paths:
parent joined with a relative child via the `/` separator. -/
def pathJoin (parent child : String) : String :=
  parent ++ "/" ++ child

/-- `build_content_path` from `vault_save.rs`:
`pack_path/{sha256[..2]}/{sha256}.{ext}`; the byte slice `&sha256[..2]` of the
ASCII hex hash is `String.take 2`. -/
def build_content_path (pack_path sha256 : String) (format : PhotoFormat) :
    String :=
  pathJoin (pathJoin pack_path (sha256.take 2))
    (sha256 ++ "." ++ format.extension)

/-- C7: `build_content_path` is the pure function
`root ++ "/" ++ hash[0:2] ++ "/" ++ hash ++ "." ++ ext` of its three
arguments — identical inputs give the identical path by functionality — and
the spec's example hash with format JPEG under root `/pack` yields
`/pack/a3/<hash>.jpg`. -/
theorem build_content_path_spec :
    (∀ (root sha : String) (fmt : PhotoFormat),
      build_content_path root sha fmt =
        root ++ "/" ++ sha.take 2 ++ "/" ++ sha ++ "." ++ fmt.extension) ∧
    build_content_path "/pack"
        "a3b1c9e8f7001122334455667788990011223344556677889900aabbccddeeff"
        .jpeg =
      "/pack/a3/a3b1c9e8f7001122334455667788990011223344556677889900aabbccddeeff.jpg" := by
  constructor
  · intro root sha fmt
    simp [build_content_path, pathJoin, String.append_assoc]
  · rfl

/-- Modelled from the spec: the manifest store and the pack filesystem, which
`cleanup_pack_files` in `vault_save.rs` manipulates, live behind `Manifest`
and `std::fs`, neither of which is among the provided sources. Per the spec
the manifest is the list of `(hash, format tag)` rows
(`list_entries() -> [(hash, format_tag)]`, `remove(hash)` deletes the rows
carrying that hash), and the pack is the set of on-disk file paths, where
deleting a file succeeds exactly when the path is present. -/
structure VaultState where
  files : Finset String
  entries : List (String × String)
deriving DecidableEq

/-- `format_str_to_extension` from `vault_save.rs`. -/
def format_str_to_extension (format_str : String) : String :=
  match format_str with
  | "CR2" => "cr2" | "CR3" => "cr3" | "NEF" => "nef" | "ARW" => "arw"
  | "ORF" => "orf" | "RAF" => "raf" | "RW2" => "rw2" | "DNG" => "dng"
  | "TIFF" => "tiff" | "PNG" => "png" | "JPEG" => "jpg" | "HEIC" => "heic"
  | "WebP" => "webp"
  | other => other

/-- The on-disk path `cleanup_pack_files` computes for a manifest entry:
`pack_path/{sha256[..2]}/{sha256}.{ext}` with the extension reconstructed
from the stored format tag. -/
def stalePath (pack_path : String) (e : String × String) : String :=
  pathJoin (pathJoin pack_path (e.1.take 2))
    (e.1 ++ "." ++ format_str_to_extension e.2)

/-- One iteration of the `cleanup_pack_files` loop (`vault_save.rs`) on a
snapshot entry `e`: entries whose hash is desired are left alone; otherwise
the file is deleted if present (and then reported), and the manifest rows
with that hash are removed unconditionally (`let _ = manifest.remove(...)`).
-/
def cleanupStep (pack_path : String) (desired : Finset String)
    (acc : VaultState × List String) (e : String × String) :
    VaultState × List String :=
  if e.1 ∈ desired then acc
  else if stalePath pack_path e ∈ acc.1.files then
    (⟨acc.1.files.erase (stalePath pack_path e),
      acc.1.entries.filter fun r => decide (r.1 ≠ e.1)⟩,
      acc.2 ++ [stalePath pack_path e])
  else
    (⟨acc.1.files, acc.1.entries.filter fun r => decide (r.1 ≠ e.1)⟩, acc.2)

/-- `cleanup_pack_files` from `vault_save.rs`: fold the loop body over the
snapshot of manifest rows taken by `list_entries()` at entry, starting with no
removals reported. -/
def cleanup_pack_files (pack_path : String) (desired : Finset String)
    (st : VaultState) : VaultState × List String :=
  st.entries.foldl (cleanupStep pack_path desired) (st, [])


lemma cleanupStep_desired {pack : String} {desired : Finset String}
    {acc : VaultState × List String} {e : String × String}
    (h : e.1 ∈ desired) : cleanupStep pack desired acc e = acc := by
  unfold cleanupStep
  rw [if_pos h]

lemma cleanupStep_stale_entries {pack : String} {desired : Finset String}
    {acc : VaultState × List String} {e : String × String}
    (h : e.1 ∉ desired) :
    (cleanupStep pack desired acc e).1.entries =
      acc.1.entries.filter fun r => decide (r.1 ≠ e.1) := by
  unfold cleanupStep
  rw [if_neg h]
  split <;> rfl

lemma cleanupStep_stale_files {pack : String} {desired : Finset String}
    {acc : VaultState × List String} {e : String × String}
    (h : e.1 ∉ desired) :
    (cleanupStep pack desired acc e).1.files =
      if stalePath pack e ∈ acc.1.files then
        acc.1.files.erase (stalePath pack e)
      else acc.1.files := by
  unfold cleanupStep
  rw [if_neg h]
  split <;> simp_all

lemma cleanupStep_stale_removed {pack : String} {desired : Finset String}
    {acc : VaultState × List String} {e : String × String}
    (h : e.1 ∉ desired) :
    (cleanupStep pack desired acc e).2 =
      if stalePath pack e ∈ acc.1.files then acc.2 ++ [stalePath pack e]
      else acc.2 := by
  unfold cleanupStep
  rw [if_neg h]
  split <;> simp_all

/-- A fold of the cleanup loop over rows whose hashes are all desired changes
nothing. -/
lemma cleanup_fold_id (pack : String) (desired : Finset String)
    (l : List (String × String)) (acc : VaultState × List String)
    (h : ∀ r ∈ l, r.1 ∈ desired) :
    l.foldl (cleanupStep pack desired) acc = acc := by
  induction l generalizing acc with
  | nil => rfl
  | cons e t ih =>
      rw [List.foldl_cons, cleanupStep_desired (h e (List.mem_cons_self e t)),
        ih acc fun r hr => h r (List.mem_cons_of_mem e hr)]

/-- Loop invariant: if every not-desired row still in the manifest is due to
be visited by the remaining snapshot rows, the final manifest holds only
desired hashes. -/
lemma cleanup_fold_entries_desired (pack : String) (desired : Finset String)
    (l : List (String × String)) :
    ∀ (st : VaultState) (rem : List String),
      (∀ r ∈ st.entries, r.1 ∉ desired → r.1 ∈ l.map Prod.fst) →
      ∀ r ∈ (l.foldl (cleanupStep pack desired) (st, rem)).1.entries,
        r.1 ∈ desired := by
  induction l with
  | nil =>
      intro st rem h r hr
      by_contra hnot
      simpa using h r hr hnot
  | cons e t ih =>
      intro st rem h r hr
      rw [List.foldl_cons] at hr
      by_cases he : e.1 ∈ desired
      · rw [cleanupStep_desired he] at hr
        refine ih st rem (fun r2 hr2 hr2d => ?_) r hr
        rcases List.mem_cons.mp (h r2 hr2 hr2d) with heq | hmem
        · exact absurd (heq ▸ he) hr2d
        · exact hmem
      · set acc' := cleanupStep pack desired (st, rem) e with hacc
        refine ih acc'.1 acc'.2 (fun r2 hr2 hr2d => ?_) r (by
          have hpair : acc' = (acc'.1, acc'.2) := rfl
          rw [← hpair]
          exact hr)
        rw [hacc, cleanupStep_stale_entries he, List.mem_filter] at hr2
        obtain ⟨hr2st, hr2ne⟩ := hr2
        rcases List.mem_cons.mp (h r2 hr2st hr2d) with heq | hmem
        · exact absurd heq (by simpa using hr2ne)
        · exact hmem

/-- Every stale manifest row is removed by `cleanup_pack_files`, whether or
not its on-disk file could be deleted. -/
lemma cleanup_entries_desired (pack : String) (desired : Finset String)
    (st : VaultState) :
    ∀ r ∈ (cleanup_pack_files pack desired st).1.entries, r.1 ∈ desired :=
  cleanup_fold_entries_desired pack desired st.entries st []
    (fun r hr _ => List.mem_map_of_mem Prod.fst hr)

/-- C5: reconciliation is idempotent — the second run of
`cleanup_pack_files` with the unchanged desired set reports no removals. -/
theorem cleanup_pack_files_idempotent (pack : String)
    (desired : Finset String) (st : VaultState) :
    (cleanup_pack_files pack desired
      (cleanup_pack_files pack desired st).1).2 = [] := by
  show ((cleanup_pack_files pack desired st).1.entries.foldl
    (cleanupStep pack desired)
    ((cleanup_pack_files pack desired st).1, [])).2 = []
  rw [cleanup_fold_id pack desired _ _
    (fun r hr => cleanup_entries_desired pack desired st r hr)]


lemma cleanupStep_files_subset (pack : String) (desired : Finset String)
    (acc : VaultState × List String) (e : String × String) :
    (cleanupStep pack desired acc e).1.files ⊆ acc.1.files := by
  by_cases he : e.1 ∈ desired
  · rw [cleanupStep_desired he]
  · rw [cleanupStep_stale_files he]
    split
    · exact Finset.erase_subset _ _
    · exact fun _ h => h

lemma cleanup_fold_removed_mono (pack : String) (desired : Finset String)
    (l : List (String × String)) :
    ∀ (acc : VaultState × List String) (p : String), p ∈ acc.2 →
      p ∈ (l.foldl (cleanupStep pack desired) acc).2 := by
  induction l with
  | nil => exact fun _ _ h => h
  | cons e t ih =>
      intro acc p hp
      rw [List.foldl_cons]
      refine ih _ p ?_
      by_cases he : e.1 ∈ desired
      · rw [cleanupStep_desired he]
        exact hp
      · rw [cleanupStep_stale_removed he]
        split
        · exact List.mem_append_left _ hp
        · exact hp

lemma cleanup_fold_removed_sound (pack : String) (desired : Finset String)
    (l : List (String × String)) :
    ∀ (st : VaultState) (rem : List String) (p : String),
      p ∈ (l.foldl (cleanupStep pack desired) (st, rem)).2 →
      p ∈ rem ∨ (p ∈ st.files ∧
        ∃ e ∈ l, e.1 ∉ desired ∧ p = stalePath pack e) := by
  induction l with
  | nil =>
      intro st rem p hp
      exact Or.inl hp
  | cons e t ih =>
      intro st rem p hp
      rw [List.foldl_cons] at hp
      by_cases he : e.1 ∈ desired
      · rw [cleanupStep_desired he] at hp
        rcases ih st rem p hp with h | ⟨hf, e2, he2, hd2, hp2⟩
        · exact Or.inl h
        · exact Or.inr ⟨hf, e2, List.mem_cons_of_mem e he2, hd2, hp2⟩
      · set acc' := cleanupStep pack desired (st, rem) e with hacc
        have hp2 : p ∈ (t.foldl (cleanupStep pack desired) (acc'.1, acc'.2)).2 := by
          have hpair : (acc'.1, acc'.2) = acc' := rfl
          rw [hpair]
          exact hp
        rcases ih acc'.1 acc'.2 p hp2 with h | ⟨hf, e2, he2, hd2, hp3⟩
        · rw [hacc, cleanupStep_stale_removed he] at h
          by_cases hex : stalePath pack e ∈ st.files
          · rw [if_pos hex] at h
            rcases List.mem_append.mp h with h | h
            · exact Or.inl h
            · refine Or.inr ⟨?_, e, List.mem_cons_self e t, he, ?_⟩ <;>
                simp_all
          · rw [if_neg hex] at h
            exact Or.inl h
        · have hsub : acc'.1.files ⊆ st.files := by
            rw [hacc]
            exact cleanupStep_files_subset pack desired (st, rem) e
          exact Or.inr ⟨hsub hf, e2, List.mem_cons_of_mem e he2, hd2, hp3⟩

lemma cleanup_fold_removed_complete (pack : String) (desired : Finset String)
    (l : List (String × String)) :
    ∀ (st : VaultState) (rem : List String) (e : String × String),
      e ∈ l → e.1 ∉ desired → stalePath pack e ∈ st.files →
      stalePath pack e ∈ (l.foldl (cleanupStep pack desired) (st, rem)).2 := by
  induction l with
  | nil =>
      intro st rem e he
      simp at he
  | cons e1 t ih =>
      intro st rem e he hd hf
      rw [List.foldl_cons]
      rcases List.mem_cons.mp he with heq | hmem
      · subst heq
        refine cleanup_fold_removed_mono pack desired t _ _ ?_
        rw [cleanupStep_stale_removed hd, if_pos hf]
        exact List.mem_append_right _ (List.mem_singleton.mpr rfl)
      · by_cases he1 : e1.1 ∈ desired
        · rw [cleanupStep_desired he1]
          exact ih st rem e hmem hd hf
        · set acc' := cleanupStep pack desired (st, rem) e1 with hacc
          by_cases hstill : stalePath pack e ∈ acc'.1.files
          · have h2 := ih acc'.1 acc'.2 e hmem hd hstill
            have hpair : (acc'.1, acc'.2) = acc' := rfl
            rw [hpair] at h2
            exact h2
          · rw [hacc, cleanupStep_stale_files he1] at hstill
            by_cases hex : stalePath pack e1 ∈ st.files
            · rw [if_pos hex] at hstill
              have heqp : stalePath pack e = stalePath pack e1 := by
                by_contra hne
                exact hstill (Finset.mem_erase.mpr ⟨hne, hf⟩)
              refine cleanup_fold_removed_mono pack desired t _ _ ?_
              rw [hacc, cleanupStep_stale_removed he1, if_pos hex, heqp]
              exact List.mem_append_right _ (List.mem_singleton.mpr rfl)
            · rw [if_neg hex] at hstill
              exact absurd hf hstill

lemma cleanup_fold_keeps (pack : String) (desired : Finset String)
    (l : List (String × String)) :
    ∀ (st : VaultState) (rem : List String) (r : String × String),
      r ∈ st.entries → r.1 ∈ desired →
      r ∈ (l.foldl (cleanupStep pack desired) (st, rem)).1.entries := by
  induction l with
  | nil =>
      intro st rem r hr _
      exact hr
  | cons e t ih =>
      intro st rem r hr hrd
      rw [List.foldl_cons]
      by_cases he : e.1 ∈ desired
      · rw [cleanupStep_desired he]
        exact ih st rem r hr hrd
      · set acc' := cleanupStep pack desired (st, rem) e with hacc
        have hr2 : r ∈ acc'.1.entries := by
          rw [hacc, cleanupStep_stale_entries he, List.mem_filter]
          refine ⟨hr, ?_⟩
          simp only [decide_eq_true_eq]
          intro hcon
          exact he (hcon ▸ hrd)
        have h2 := ih acc'.1 acc'.2 r hr2 hrd
        have hpair : (acc'.1, acc'.2) = acc' := rfl
        rw [hpair] at h2
        exact h2

/-- Counterexample to C6 as stated: with an empty pack directory, a manifest
row ("a3b1", JPEG) whose hash is not desired has its on-disk deletion fail
(the file is absent, so nothing is reported removed), yet the manifest row is
removed anyway. -/
theorem cleanup_row_removed_despite_failed_delete :
    (cleanup_pack_files "/pack" (∅ : Finset String)
        ⟨(∅ : Finset String), [("a3b1", "JPEG")]⟩).2 = [] ∧
    (cleanup_pack_files "/pack" (∅ : Finset String)
        ⟨(∅ : Finset String), [("a3b1", "JPEG")]⟩).1.entries = [] := by
  constructor <;> rfl

/-- C6 (amended): during reconciliation every manifest row whose hash is
absent from the desired set is removed unconditionally — even when the
on-disk deletion fails because the file is missing — while rows with desired
hashes are kept; a path is reported removed exactly when it is the content
path of some stale row and the file was present on disk (so its deletion
succeeded). -/
theorem cleanup_pack_files_rows_and_files (pack : String)
    (desired : Finset String) (st : VaultState) :
    (∀ r ∈ (cleanup_pack_files pack desired st).1.entries, r.1 ∈ desired) ∧
    (∀ r ∈ st.entries, r.1 ∈ desired →
      r ∈ (cleanup_pack_files pack desired st).1.entries) ∧
    (∀ p ∈ (cleanup_pack_files pack desired st).2,
      p ∈ st.files ∧ ∃ e ∈ st.entries, e.1 ∉ desired ∧
        p = stalePath pack e) ∧
    (∀ e ∈ st.entries, e.1 ∉ desired → stalePath pack e ∈ st.files →
      stalePath pack e ∈ (cleanup_pack_files pack desired st).2) := by
  refine ⟨cleanup_entries_desired pack desired st,
    fun r hr hrd => cleanup_fold_keeps pack desired st.entries st [] r hr hrd,
    fun p hp => ?_,
    fun e he hd hf =>
      cleanup_fold_removed_complete pack desired st.entries st [] e he hd hf⟩
  rcases cleanup_fold_removed_sound pack desired st.entries st [] p hp with
    h | h
  · simp at h
  · exact h

/-- Closed witness for `cleanup_pack_files_rows_and_files` on a pack holding
the file for stale hash "a3b1" and a manifest also listing desired hash
"ffee": the kept row, the removal report, and the desired-hash conclusion are
all obtained by applying the theorem. -/
theorem cleanup_pack_files_rows_and_files_witness :
    ("ffee", "PNG").1 ∈ ({"ffee"} : Finset String) ∧
    ("ffee", "PNG") ∈ (cleanup_pack_files "/pack" {"ffee"}
        ⟨{"/pack/a3/a3b1.jpg"},
          [("a3b1", "JPEG"), ("ffee", "PNG")]⟩).1.entries ∧
    stalePath "/pack" ("a3b1", "JPEG") ∈
      (cleanup_pack_files "/pack" {"ffee"}
        ⟨{"/pack/a3/a3b1.jpg"},
          [("a3b1", "JPEG"), ("ffee", "PNG")]⟩).2 :=
  ⟨(cleanup_pack_files_rows_and_files "/pack" {"ffee"}
      ⟨{"/pack/a3/a3b1.jpg"}, [("a3b1", "JPEG"), ("ffee", "PNG")]⟩).1
      ("ffee", "PNG") (by decide),
   (cleanup_pack_files_rows_and_files "/pack" {"ffee"}
      ⟨{"/pack/a3/a3b1.jpg"}, [("a3b1", "JPEG"), ("ffee", "PNG")]⟩).2.1
      ("ffee", "PNG") (by decide) (by decide),
   (cleanup_pack_files_rows_and_files "/pack" {"ffee"}
      ⟨{"/pack/a3/a3b1.jpg"}, [("a3b1", "JPEG"), ("ffee", "PNG")]⟩).2.2.2
      ("a3b1", "JPEG") (by decide) (by decide) (by decide)⟩


/-- The left 8×8 block extracted from the 9-wide rows of the grayscale buffer
(`compute_ahash` in `hasher/perceptual.rs`): `block[row*8+col] =
pixels[row*9+col]`, i.e. block index `i` reads `pixels[(i/8)*9 + i%8]`. The
buffer is modelled as a function from indices; the hash functions below read
only indices below 72, matching the `[u8; 72]` buffer of the source. -/
def ahashBlock (pixels : Nat → Nat) (i : Nat) : Nat :=
  pixels ((i / 8) * 9 + i % 8)

/-- The integer mean of the 64 block samples (`sum::<u64>() / 64` in
`compute_ahash`). -/
def ahashMean (pixels : Nat → Nat) : Nat :=
  ((List.range 64).map (ahashBlock pixels)).sum / 64

/-- `compute_ahash` from `hasher/perceptual.rs`: bit `i` set when block
sample `i` is ≥ the mean. -/
def compute_ahash (pixels : Nat → Nat) : Nat :=
  (List.range 64).foldl
    (fun hash i =>
      if ahashMean pixels ≤ ahashBlock pixels i then hash ||| (1 <<< i)
      else hash) 0

/-- `compute_dhash` from `hasher/perceptual.rs`: bit counter `row*8+col`,
set when the left sample `pixels[row*9+col]` strictly exceeds the right
sample `pixels[row*9+col+1]`. -/
def compute_dhash (pixels : Nat → Nat) : Nat :=
  (List.range 64).foldl
    (fun hash bit =>
      if pixels (bit / 8 * 9 + bit % 8 + 1) < pixels (bit / 8 * 9 + bit % 8)
      then hash ||| (1 <<< bit)
      else hash) 0

/-- Bit `i` of a fold that ors in `2^j` for each `j < n` satisfying `p`. -/
lemma foldl_orBits_testBit (p : Nat → Prop) [DecidablePred p] (n i : Nat) :
    Nat.testBit ((List.range n).foldl
      (fun h j => if p j then h ||| (1 <<< j) else h) 0) i =
    (decide (i < n) && decide (p i)) := by
  induction n with
  | zero => simp
  | succ n ih =>
      rw [List.range_succ, List.foldl_append, List.foldl_cons, List.foldl_nil]
      by_cases hp : p n
      · rw [if_pos hp, Nat.testBit_or, ih, Nat.one_shiftLeft]
        by_cases hin : i = n
        · subst hin
          simp [Nat.testBit_two_pow_self, hp, Nat.lt_succ_self]
        · rw [Nat.testBit_two_pow_of_ne fun h => hin h.symm]
          rw [show decide (i < n + 1) = decide (i < n) from
            decide_eq_decide.mpr (by omega)]
          simp
      · rw [if_neg hp, ih]
        by_cases hin : i = n
        · subst hin
          simp [hp]
        · rw [show decide (i < n + 1) = decide (i < n) from
            decide_eq_decide.mpr (by omega)]

/-- The or-fold stays below `2^n`. -/
lemma foldl_orBits_lt_two_pow (p : Nat → Prop) [DecidablePred p] (n : Nat) :
    (List.range n).foldl (fun h j => if p j then h ||| (1 <<< j) else h) 0 <
      2 ^ n := by
  induction n with
  | zero => norm_num
  | succ n ih =>
      rw [List.range_succ, List.foldl_append, List.foldl_cons, List.foldl_nil]
      have hstep : (2:Nat) ^ n < 2 ^ (n + 1) :=
        Nat.pow_lt_pow_right one_lt_two (Nat.lt_succ_self n)
      by_cases hp : p n
      · rw [if_pos hp]
        refine Nat.or_lt_two_pow (lt_trans ih hstep) ?_
        rw [Nat.one_shiftLeft]
        exact hstep
      · rw [if_neg hp]
        exact lt_trans ih hstep

/-- C8: bit `r*8+c` of the average hash is set exactly when the left-block
sample `pixels[r*9+c]` is ≥ the integer mean of the 64 block samples; bit
`r*8+c` of the difference hash is set exactly when the left sample
`pixels[r*9+c]` strictly exceeds its right neighbour `pixels[r*9+c+1]`; both
hashes are 64-bit values. -/
theorem perceptual_hash_bits (pixels : Nat → Nat) :
    (∀ r c, r < 8 → c < 8 →
      Nat.testBit (compute_ahash pixels) (r * 8 + c) =
        decide (ahashMean pixels ≤ pixels (r * 9 + c))) ∧
    (∀ r c, r < 8 → c < 8 →
      Nat.testBit (compute_dhash pixels) (r * 8 + c) =
        decide (pixels (r * 9 + c + 1) < pixels (r * 9 + c))) ∧
    compute_ahash pixels < 2 ^ 64 ∧ compute_dhash pixels < 2 ^ 64 := by
  refine ⟨fun r c hr hc => ?_, fun r c hr hc => ?_,
    foldl_orBits_lt_two_pow _ 64, foldl_orBits_lt_two_pow _ 64⟩
  · have h : Nat.testBit (compute_ahash pixels) (r * 8 + c) =
        (decide (r * 8 + c < 64) &&
          decide (ahashMean pixels ≤ ahashBlock pixels (r * 8 + c))) :=
      foldl_orBits_testBit
        (fun j => ahashMean pixels ≤ ahashBlock pixels j) 64 (r * 8 + c)
    rw [h]
    unfold ahashBlock
    rw [show (r * 8 + c) / 8 = r from by omega,
      show (r * 8 + c) % 8 = c from by omega]
    simp [show r * 8 + c < 64 from by omega]
  · have h : Nat.testBit (compute_dhash pixels) (r * 8 + c) =
        (decide (r * 8 + c < 64) &&
          decide (pixels ((r * 8 + c) / 8 * 9 + (r * 8 + c) % 8 + 1) <
            pixels ((r * 8 + c) / 8 * 9 + (r * 8 + c) % 8))) :=
      foldl_orBits_testBit
        (fun j => pixels (j / 8 * 9 + j % 8 + 1) < pixels (j / 8 * 9 + j % 8))
        64 (r * 8 + c)
    rw [h]
    rw [show (r * 8 + c) / 8 = r from by omega,
      show (r * 8 + c) % 8 = c from by omega]
    simp [show r * 8 + c < 64 from by omega]

/-- Closed witness for `perceptual_hash_bits`: on the buffer whose sample at
index `i` is `i`, bit 0 of the average hash records whether sample 0 clears
the mean, and bit 0 of the difference hash compares samples 1 and 0. -/
theorem perceptual_hash_bits_witness :
    Nat.testBit (compute_ahash (fun i => i)) 0 =
      decide (ahashMean (fun i => i) ≤ 0) ∧
    Nat.testBit (compute_dhash (fun i => i)) 0 = decide ((1:Nat) < 0) :=
  ⟨(perceptual_hash_bits (fun i => i)).1 0 0 (by decide) (by decide),
   (perceptual_hash_bits (fun i => i)).2.1 0 0 (by decide) (by decide)⟩

end LosslessVault
